import Mathlib

/-!
Verification of the local-first synchronization and reconciliation engine of the
Smoothiedejour recipe-sharing client. The definitions below are a shallow embedding
of the relevant TypeScript source: `src/App.tsx` (merge, migration, submit, update,
delete, authorization), `src/utils/supabase/community.ts` (remote client), and the
`recipes` edge function (remote create endpoint). Asynchronous remote calls are
embedded by passing their outcome as an explicit parameter; React state updates
become explicit state passing on `AppState`.
-/

namespace Smoothie

/-- Recipe identifiers. The source's `id` field has TypeScript type
`number | string`: built-in seed recipes carry numeric ids, while community
records (`"recipe:" ...`) and local fallback records (`"user-" ...`) carry
string ids. -/
inductive Rid where
  | num (n : Nat)
  | str (s : String)
deriving DecidableEq, Repr

/-- `String(id)`: JavaScript stringification of an id, used by the delete and
update handlers when comparing ids. -/
def Rid.toStr : Rid → String
  | .num n => toString n
  | .str s => s

/-- A recipe record. Fields are `Option`s because records loaded from
`localStorage` are untyped (`any`) and may miss fields; `none` models an
absent (`undefined`) field. -/
structure Recipe where
  id : Rid
  name : Option String
  contributor : Option String
  emoji : Option String
  color : Option String
  ingredients : Option (List String)
  instructions : Option String
  servings : Option Nat
  prepTime : Option String
  containsFat : Option Bool
  containsNuts : Option Bool
  createdAt : Option String
deriving DecidableEq, Repr

/-- A draft: `Omit<CommunityRecipe, 'id' | 'createdAt'>` — the payload of
submit/update calls. -/
structure Draft where
  name : Option String
  contributor : Option String
  emoji : Option String
  color : Option String
  ingredients : Option (List String)
  instructions : Option String
  servings : Option Nat
  prepTime : Option String
  containsFat : Option Bool
  containsNuts : Option Bool
deriving DecidableEq, Repr

/-- JavaScript falsiness of an optional string field: absent (`undefined`) and
the empty string are both falsy. -/
def strFalsy : Option String → Bool
  | none => true
  | some s => s == ""

/-- JavaScript `x || d` for an optional string `x`. -/
def jsOrS : Option String → String → String
  | none, d => d
  | some s, d => if s == "" then d else s

/-- JavaScript `x || d` for an optional number `x` (0 is falsy). -/
def jsOrN : Option Nat → Nat → Nat
  | none, d => d
  | some n, d => if n == 0 then d else n

/-- JavaScript `x || d` for an optional boolean `x`. -/
def jsOrB : Option Bool → Bool → Bool
  | none, d => d
  | some b, d => if b then b else d

/-- JavaScript `x || y` where both sides are optional strings. -/
def jsOrOpt : Option String → Option String → Option String
  | none, d => d
  | some s, d => if s == "" then d else some s

/-- Attach an id and creation timestamp to a draft (object spread
`{ ...draft, id, createdAt }`). -/
def Draft.toRec (d : Draft) (i : Rid) (createdAt : Option String) : Recipe :=
  { id := i, name := d.name, contributor := d.contributor, emoji := d.emoji,
    color := d.color, ingredients := d.ingredients, instructions := d.instructions,
    servings := d.servings, prepTime := d.prepTime, containsFat := d.containsFat,
    containsNuts := d.containsNuts, createdAt := createdAt }

/-- Strip `id` and `createdAt` from a record
(`const { id, createdAt, ...recipeToSubmit } = localRecipe`). -/
def Recipe.draft (r : Recipe) : Draft :=
  { name := r.name, contributor := r.contributor, emoji := r.emoji,
    color := r.color, ingredients := r.ingredients, instructions := r.instructions,
    servings := r.servings, prepTime := r.prepTime, containsFat := r.containsFat,
    containsNuts := r.containsNuts }

/-- `{ ...r, ...draft }`: patch a record in place with a draft, keeping the
record's `id` and `createdAt` (the draft has neither key). Used by
`handleUpdateRecipe`'s local fallback branch. -/
def Recipe.patch (r : Recipe) (d : Draft) : Recipe :=
  d.toRec r.id r.createdAt

/-- Modelled from the spec: the built-in seed recipe list (the module
`src/data/recipes` imported by `App.tsx`) is not present under `src/`. Per the
spec (§3 and Glossary) seed recipes are bundled, read-only records never owned
by any user, living in the bare-integer id namespace — consistent with
`components/smoothie-data.ts`, whose seed records carry numeric ids 1, 2, 3, ….
Only their existence and id namespace matter to the claims below. -/
def defaultRecipes : List Recipe :=
  [ { id := .num 1, name := some "Tropical Paradise", contributor := some "Sarah M.",
      emoji := some "🥭", color := some "#FFB347",
      ingredients := some ["1 cup frozen mango chunks", "1 banana", "1 cup coconut milk"],
      instructions := some "Blend on high for 60 seconds.",
      servings := some 2, prepTime := some "5 mins",
      containsFat := some true, containsNuts := some false, createdAt := none },
    { id := .num 2, name := some "Green Goddess", contributor := some "Mike R.",
      emoji := some "🥬", color := some "#77DD77",
      ingredients := some ["2 cups fresh spinach", "1 green apple", "1 cup almond milk"],
      instructions := some "Blend until completely smooth.",
      servings := some 1, prepTime := some "3 mins",
      containsFat := some false, containsNuts := some true, createdAt := none },
    { id := .num 3, name := some "Berry Bliss", contributor := some "Emma L.",
      emoji := some "🫐", color := some "#9370DB",
      ingredients := some ["1 cup mixed berries", "1 cup greek yogurt"],
      instructions := some "Blend berries and yogurt until smooth.",
      servings := some 1, prepTime := some "4 mins",
      containsFat := some false, containsNuts := some false, createdAt := none } ]

/-- The component state of `App` that the engine reads and writes. -/
structure AppState where
  communityRecipes : List Recipe
  userRecipes : List Recipe
  favorites : List Rid
  communityRecipesLoadFailed : Bool
  currentRecipe : Option Recipe
  syncError : Option String
deriving DecidableEq, Repr

/-- `allRecipes` (App.tsx lines 71–78): defaults are included only when the
community fetch failed; otherwise community + user recipes. -/
def allRecipes (s : AppState) : List Recipe :=
  if s.communityRecipesLoadFailed then defaultRecipes ++ s.userRecipes
  else s.communityRecipes ++ s.userRecipes

/-- The outcome of an asynchronous `fetchCommunityRecipes()` call. -/
inductive FetchOutcome where
  | success (recipes : List Recipe)
  | failure
deriving DecidableEq, Repr

/-- The fetch effect (App.tsx lines 90–110): on resolution, store the recipes
and clear the failure flag; on rejection, set the failure flag. -/
def applyFetch (s : AppState) : FetchOutcome → AppState
  | .success rs => { s with communityRecipes := rs, communityRecipesLoadFailed := false }
  | .failure => { s with communityRecipesLoadFailed := true }

/-- JavaScript's `s.startsWith(p)`, modelled on the character lists of the two
strings. -/
def jsStartsWith (s p : String) : Bool := p.toList.isPrefixOf s.toList

/-- The auth state read through `useAuth()`: `user` is `some email` when a
session exists, and `nickname` is the optional profile nickname. -/
structure Auth where
  user : Option String
  nickname : Option String
deriving DecidableEq, Repr

/-- `nickname || user.email` for a signed-in user. -/
def identOf (nickname : Option String) (email : String) : String :=
  match nickname with
  | none => email
  | some n => if n == "" then email else n

/-- `canEditRecipe` (App.tsx lines 305–314): requires a session, a string id
with the `recipe:` namespace, and a contributor match. -/
def canEditRecipe (a : Auth) (r : Recipe) : Bool :=
  match a.user with
  | none => false
  | some email =>
    match r.id with
    | .num _ => false
    | .str s =>
      if jsStartsWith s "recipe:" then r.contributor == some (identOf a.nickname email)
      else false

/-- `canDeleteRecipe` (App.tsx lines 317–329): requires a session and a
contributor match for a string id in the `recipe:` or `user-` namespace. -/
def canDeleteRecipe (a : Auth) (r : Recipe) : Bool :=
  match a.user with
  | none => false
  | some email =>
    match r.id with
    | .num _ => false
    | .str s =>
      if jsStartsWith s "recipe:" then r.contributor == some (identOf a.nickname email)
      else if jsStartsWith s "user-" then r.contributor == some (identOf a.nickname email)
      else false

/-- The outcome of an asynchronous remote create/update call: the parsed record
on success, or a thrown error. -/
inductive RemoteResult where
  | ok (r : Recipe)
  | err
deriving DecidableEq, Repr

/-- `nickname || user?.email || recipe.contributor`: the contributor attached
by the submit and update handlers. -/
def resolvedContributor (a : Auth) (dc : Option String) : Option String :=
  jsOrOpt a.nickname (jsOrOpt a.user dc)

/-- The local fallback record synthesized by `handleSubmitRecipe` on remote
failure: `{ ...recipeWithContributor, id: ` `user-${Date.now()}` ` }`. -/
def submitFallback (a : Auth) (d : Draft) (now : Nat) : Recipe :=
  ({ d with contributor := resolvedContributor a d.contributor } : Draft).toRec
    (.str ("user-" ++ toString now)) none

/-- `handleSubmitRecipe` (App.tsx lines 244–261). Returns the new state and the
boolean result reported to the caller. -/
def handleSubmitRecipe (a : Auth) (s : AppState) (d : Draft) (now : Nat)
    (remote : RemoteResult) : AppState × Bool :=
  match remote with
  | .ok created =>
      ({ s with communityRecipes := s.communityRecipes ++ [created],
                currentRecipe := some created }, true)
  | .err =>
      let fallback := submitFallback a d now
      ({ s with userRecipes := s.userRecipes ++ [fallback],
                currentRecipe := some fallback }, true)

/-- `handleUpdateRecipe` (App.tsx lines 263–289). The remote client is always
called first (its outcome is the `remote` parameter); the local fallback branch
runs only in the `catch` and only for `user-`-prefixed ids. Returns the new
state, the boolean result, and whether the remote client was called. -/
def handleUpdateRecipe (a : Auth) (s : AppState) (recipeId : String) (d : Draft)
    (remote : RemoteResult) : AppState × Bool × Bool :=
  let d' : Draft := { d with contributor := resolvedContributor a d.contributor }
  match remote with
  | .ok updated =>
      let community := s.communityRecipes.map fun r =>
        if r.id == Rid.str recipeId then updated else r
      let current := match s.currentRecipe with
        | some c => if c.id.toStr == recipeId then some updated else some c
        | none => none
      ({ s with communityRecipes := community, currentRecipe := current }, true, true)
  | .err =>
      if jsStartsWith recipeId "user-" then
        let users := s.userRecipes.map fun r =>
          if r.id == Rid.str recipeId then r.patch d' else r
        let current := match s.currentRecipe with
          | some c => if c.id.toStr == recipeId then some (c.patch d') else some c
          | none => none
        ({ s with userRecipes := users, currentRecipe := current }, true, true)
      else
        (s, false, true)

/-- `handleDeleteRecipe` (App.tsx lines 332–388). The state change is entirely
optimistic and independent of the background remote delete (`remoteFails` is
ignored, mirroring the swallowed `catch`). Returns the new state and whether a
remote delete was issued (only for `recipe:`-prefixed ids). -/
def handleDeleteRecipe (s : AppState) (r : Recipe) (_remoteFails : Bool) :
    AppState × Bool :=
  let recipeId := r.id.toStr
  let community := s.communityRecipes.filter fun x => !(x.id.toStr == recipeId)
  let users := s.userRecipes.filter fun x => !(x.id.toStr == recipeId)
  let favs := s.favorites.filter fun x => !(x == r.id)
  let current := match s.currentRecipe with
    | some c => if c.id.toStr == recipeId then none else some c
    | none => none
  ({ s with communityRecipes := community, userRecipes := users,
            favorites := favs, currentRecipe := current },
   jsStartsWith recipeId "recipe:")

/-- The validation guard of `syncLocalRecipes` (App.tsx lines 133–134): all four
required fields must be truthy. Note that a present-but-empty ingredients array
is truthy in JavaScript, so it passes. -/
def recValid (d : Draft) : Bool :=
  !(strFalsy d.name || strFalsy d.contributor || d.ingredients.isNone ||
    strFalsy d.instructions)

/-- The `missingFields` list built for an invalid record
(App.tsx lines 135–139). -/
def missingFields (d : Draft) : List String :=
  (if strFalsy d.name then ["name"] else []) ++
  (if strFalsy d.contributor then ["contributor"] else []) ++
  (if d.ingredients.isNone then ["ingredients"] else []) ++
  (if strFalsy d.instructions then ["instructions"] else [])

/-- The guarded insertion into the community set after a successful migration
create (App.tsx lines 150–156): skip if the id is already present. -/
def guardInsert (community : List Recipe) (created : Recipe) : List Recipe :=
  if community.any (fun r => r.id == created.id) then community
  else community ++ [created]

/-- The accumulator threaded through the migration loop: the in-memory
community set, the ids marked for removal, the invalid records with their
missing fields, and (as an observation of the embedding) the drafts actually
submitted to the remote create endpoint. -/
structure SyncAcc where
  community : List Recipe
  toRemove : List Rid
  toFix : List (Rid × List String)
  submitted : List Draft
deriving DecidableEq, Repr

/-- The sequential `for` loop of `syncLocalRecipes` (App.tsx lines 126–161).
`outcome` gives the result of the awaited remote create for each record. -/
def syncLoop (outcome : Recipe → RemoteResult) :
    List Recipe → SyncAcc → SyncAcc
  | [], acc => acc
  | r :: rest, acc =>
      let d := r.draft
      if recValid d then
        match outcome r with
        | .ok created =>
            syncLoop outcome rest
              { acc with community := guardInsert acc.community created,
                         toRemove := acc.toRemove ++ [r.id],
                         submitted := acc.submitted ++ [d] }
        | .err =>
            syncLoop outcome rest { acc with submitted := acc.submitted ++ [d] }
      else
        syncLoop outcome rest
          { acc with toFix := acc.toFix ++ [(r.id, missingFields d)] }

/-- `syncLocalRecipes` (App.tsx lines 113–185): bail out on an empty store or
no session; run the loop; drop successfully migrated records; then silently
drop records missing `name` or `contributor`. Returns the new state and the
list of drafts submitted to the remote create endpoint during the pass. -/
def syncLocalRecipes (a : Auth) (s : AppState) (outcome : Recipe → RemoteResult) :
    AppState × List Draft :=
  if s.userRecipes.isEmpty then (s, [])
  else if a.user.isNone then (s, [])
  else
    let res := syncLoop outcome s.userRecipes
      { community := s.communityRecipes, toRemove := [], toFix := [], submitted := [] }
    let user1 :=
      if res.toRemove.isEmpty then s.userRecipes
      else s.userRecipes.filter fun r => !(res.toRemove.contains r.id)
    let toDelete :=
      (res.toFix.filter fun p => p.2.contains "name" || p.2.contains "contributor").map
        Prod.fst
    let user2 :=
      if res.toFix.isEmpty then user1
      else if toDelete.isEmpty then user1
      else user1.filter fun r => !(toDelete.contains r.id)
    ({ s with communityRecipes := res.community, userRecipes := user2 }, res.submitted)

/-- The default instructions placeholder used by the load-time repair step. -/
def instructionsPlaceholder : String := "Blend all ingredients together."

/-- The per-record repair step run on load (App.tsx lines 41–52): a record
missing `name` or `contributor` is returned as-is; otherwise missing
`ingredients` become `[]` and falsy `instructions` become the placeholder. -/
def repairRecord (r : Recipe) : Recipe :=
  if strFalsy r.name || strFalsy r.contributor then r
  else { r with ingredients := some (r.ingredients.getD []),
                instructions := some (jsOrS r.instructions instructionsPlaceholder) }

/-- The `userRecipes` initializer (App.tsx lines 36–60): repair every loaded
record, and persist the repaired list back iff it is non-empty and differs from
what was loaded. Returns the in-memory list and the value written back to
storage (if any). -/
def loadUserRecipes (saved : List Recipe) : List Recipe × Option (List Recipe) :=
  let fixed := saved.map repairRecord
  (fixed, if fixed.length > 0 then (if fixed = saved then none else some fixed) else none)

/-- The response of the remote create endpoint. -/
inductive CreateResult where
  | badRequest (missing : List String)
  | created (r : Recipe)
deriving DecidableEq, Repr

/-- The `POST` handler of the recipes edge function
(`supabase/functions/recipes/index.ts` lines 26–55, identical validation and
defaults in the richer variant at `unnamed/part_002` lines 68–111). `newId`
stands for the generated `recipe:${Date.now()}:${random}` id and `now` for the
creation timestamp. -/
def serverCreate (d : Draft) (newId : String) (now : String) : CreateResult :=
  if strFalsy d.name || strFalsy d.contributor || d.ingredients.isNone ||
     strFalsy d.instructions then
    .badRequest (missingFields d)
  else
    .created
      { id := .str newId,
        name := d.name,
        contributor := d.contributor,
        emoji := some (jsOrS d.emoji "🥤"),
        color := some (jsOrS d.color "#9333EA"),
        ingredients := d.ingredients,
        instructions := d.instructions,
        servings := some (jsOrN d.servings 1),
        prepTime := some (jsOrS d.prepTime "5 min"),
        containsFat := some (jsOrB d.containsFat false),
        containsNuts := some (jsOrB d.containsNuts false),
        createdAt := some now }

/-- The sixteen uppercase hexadecimal digit characters. -/
def hexDigits : List Char :=
  ['0', '1', '2', '3', '4', '5', '6', '7', '8', '9', 'A', 'B', 'C', 'D', 'E', 'F']

/-- The hexadecimal digit for a value below 16. -/
def hexDigit (n : Nat) : Char := hexDigits.getD n '0'

/-- The characters left unescaped by JavaScript's `encodeURIComponent`:
ASCII letters, digits, and `- _ . ! ~ * ' ( )`. -/
def isUnreservedChar (c : Char) : Bool :=
  c.isAlpha || c.isDigit || c == '-' || c == '_' || c == '.' || c == '!' ||
  c == '~' || c == '*' || c == Char.ofNat 39 || c == '(' || c == ')'

/-- The UTF-8 byte sequence of a unicode scalar value. -/
def utf8Bytes (c : Char) : List Nat :=
  let n := c.toNat
  if n < 128 then [n]
  else if n < 2048 then [192 + n / 64, 128 + n % 64]
  else if n < 65536 then [224 + n / 4096, 128 + (n / 64) % 64, 128 + n % 64]
  else [240 + n / 262144, 128 + (n / 4096) % 64, 128 + (n / 64) % 64, 128 + n % 64]

/-- A percent-escape `%HH` for one byte. -/
def pctByte (b : Nat) : List Char := ['%', hexDigit (b / 16), hexDigit (b % 16)]

/-- `encodeURIComponent` on one character: unreserved characters pass through;
every other character is replaced by the percent-escapes of its UTF-8 bytes. -/
def encodeChar (c : Char) : List Char :=
  if isUnreservedChar c then [c] else (utf8Bytes c).flatMap pctByte

/-- JavaScript's `encodeURIComponent`, on a string given as a character list. -/
def encodeUC (l : List Char) : List Char := l.flatMap encodeChar

/-- The path built by `updateCommunityRecipe`
(`unnamed/part_008` lines 76–97): `${baseUrl}/${encodeURIComponent(recipeId)}`.
The final path segment is the encoded id. -/
def buildUpdatePath (baseUrl : String) (recipeId : String) : String :=
  baseUrl ++ "/" ++ String.mk (encodeUC recipeId.toList)

/-- The output of `encodeUC` decomposed into its per-character blocks: a
singleton for an unreserved character, or one `%HH` triple per UTF-8 byte. -/
def encBlocks (l : List Char) : List (List Char) :=
  l.flatMap fun c =>
    if isUnreservedChar c then [[c]] else (utf8Bytes c).map pctByte

/-- Whether an id lives in the numeric (seed) namespace. -/
def Rid.isNum : Rid → Bool
  | .num _ => true
  | .str _ => false

theorem defaultRecipes_num_id : ∀ r ∈ defaultRecipes, r.id.isNum = true := by decide

theorem notMem_defaultRecipes_of_str {r : Recipe} {t : String} (h : r.id = .str t) :
    r ∉ defaultRecipes := by
  intro hmem
  have := defaultRecipes_num_id r hmem
  rw [h] at this
  simp [Rid.isNum] at this

/-- An empty app state used to instantiate theorems with hypotheses. -/
def s0 : AppState :=
  { communityRecipes := [], userRecipes := [], favorites := [],
    communityRecipesLoadFailed := false, currentRecipe := none, syncError := none }

/-- A signed-in auth state used to instantiate theorems with hypotheses. -/
def a0 : Auth := { user := some "alice@example.com", nickname := some "alice" }

/-- A complete draft used to instantiate theorems with hypotheses. -/
def d0 : Draft :=
  { name := some "Sunrise", contributor := some "alice", emoji := some "🍓",
    color := some "#FF0000", ingredients := some ["1 cup strawberries"],
    instructions := some "Blend well.", servings := some 1,
    prepTime := some "2 min", containsFat := some false, containsNuts := some false }

/-- C1: after a successful fetch (even with zero recipes) the visible catalog is
the fetched community recipes followed by the local user recipes and contains no
built-in seed recipe (seed records live in the numeric id namespace, while
community and user records carry string ids); after a failed fetch the catalog
is the seed recipes followed by the user recipes, hence contains every seed
recipe. -/
theorem C1_merge_exclusivity (s : AppState) (o : FetchOutcome) :
    (∀ rs, o = .success rs →
      allRecipes (applyFetch s o) = rs ++ s.userRecipes ∧
      ((∀ r ∈ rs, r.id.isNum = false) → (∀ r ∈ s.userRecipes, r.id.isNum = false) →
        ∀ r ∈ allRecipes (applyFetch s o), r ∉ defaultRecipes)) ∧
    (o = .failure →
      allRecipes (applyFetch s o) = defaultRecipes ++ s.userRecipes ∧
      ∀ r ∈ defaultRecipes, r ∈ allRecipes (applyFetch s o)) := by
  constructor
  · rintro rs rfl
    constructor
    · simp [applyFetch, allRecipes]
    · intro hc hu r hr hseed
      have hnum := defaultRecipes_num_id r hseed
      simp [applyFetch, allRecipes] at hr
      rcases hr with hr | hr
      · rw [hc r hr] at hnum; exact Bool.false_ne_true hnum
      · rw [hu r hr] at hnum; exact Bool.false_ne_true hnum
  · rintro rfl
    constructor
    · simp [applyFetch, allRecipes]
    · intro r hr
      simp [applyFetch, allRecipes]
      exact Or.inl hr

/-- Witness for C1 at a concrete state: an empty successful fetch shows only
user recipes and no seed recipe; a failed fetch shows all seed recipes. -/
theorem C1_merge_exclusivity_witness :
    (allRecipes (applyFetch s0 (.success [])) = [] ++ s0.userRecipes ∧
      ∀ r ∈ allRecipes (applyFetch s0 (.success [])), r ∉ defaultRecipes) ∧
    (allRecipes (applyFetch s0 .failure) = defaultRecipes ++ s0.userRecipes ∧
      ∀ r ∈ defaultRecipes, r ∈ allRecipes (applyFetch s0 .failure)) := by
  have h := C1_merge_exclusivity s0 (.success [])
  have h' := C1_merge_exclusivity s0 .failure
  refine ⟨⟨(h.1 [] rfl).1, (h.1 [] rfl).2 (by simp) (by simp [s0])⟩, h'.2 rfl⟩

/-- C7: `canEdit` is false whenever the recipe id is not a `recipe:`-prefixed
string — in particular for every numeric (seed) id — regardless of the
contributor; and both `canEdit` and `canDelete` are false when no session
exists. -/
theorem C7_authorization_gate (a : Auth) (r : Recipe) :
    (a.user = none → canEditRecipe a r = false ∧ canDeleteRecipe a r = false) ∧
    (∀ n, r.id = .num n → canEditRecipe a r = false) ∧
    (∀ t, r.id = .str t → jsStartsWith t "recipe:" = false →
      canEditRecipe a r = false) := by
  refine ⟨?_, ?_, ?_⟩
  · intro hu
    constructor
    · simp [canEditRecipe, hu]
    · simp [canDeleteRecipe, hu]
  · intro n hid
    cases h : a.user with
    | none => simp [canEditRecipe, h]
    | some email => simp [canEditRecipe, h, hid]
  · intro t hid hpfx
    cases h : a.user with
    | none => simp [canEditRecipe, h]
    | some email => simp [canEditRecipe, h, hid, hpfx]

/-- Witness for C7: a seed recipe is not editable by a signed-in user even with
a matching contributor; a `user-`-prefixed local record is not editable; a
signed-out visitor can neither edit nor delete. -/
theorem C7_authorization_gate_witness :
    (canEditRecipe { user := none, nickname := none }
        (Draft.toRec d0 (.str "recipe:1:a") none) = false ∧
      canDeleteRecipe { user := none, nickname := none }
        (Draft.toRec d0 (.str "recipe:1:a") none) = false) ∧
    canEditRecipe a0 (Draft.toRec d0 (.num 1) none) = false ∧
    canEditRecipe a0 (Draft.toRec d0 (.str "user-456") none) = false := by
  refine ⟨(C7_authorization_gate _ _).1 rfl, ?_, ?_⟩
  · exact (C7_authorization_gate a0 _).2.1 1 rfl
  · exact (C7_authorization_gate a0 _).2.2 "user-456" rfl (by decide)

/-- C4: submission reports success on both remote outcomes; on remote success
the returned record is appended to the community set and becomes the current
recipe; on remote failure the draft is persisted to the local store under a
synthesized `user-`-prefixed id and becomes the current recipe. -/
theorem C4_submit_never_fails (a : Auth) (s : AppState) (d : Draft) (now : Nat) :
    (∀ created,
      (handleSubmitRecipe a s d now (.ok created)).2 = true ∧
      (handleSubmitRecipe a s d now (.ok created)).1.communityRecipes =
        s.communityRecipes ++ [created] ∧
      (handleSubmitRecipe a s d now (.ok created)).1.currentRecipe = some created ∧
      (handleSubmitRecipe a s d now (.ok created)).1.userRecipes = s.userRecipes) ∧
    ((handleSubmitRecipe a s d now .err).2 = true ∧
     (handleSubmitRecipe a s d now .err).1.userRecipes =
       s.userRecipes ++ [submitFallback a d now] ∧
     (handleSubmitRecipe a s d now .err).1.currentRecipe =
       some (submitFallback a d now) ∧
     (handleSubmitRecipe a s d now .err).1.communityRecipes = s.communityRecipes ∧
     (submitFallback a d now).id = .str ("user-" ++ toString now) ∧
     jsStartsWith (Rid.toStr (submitFallback a d now).id) "user-" = true) := by
  refine ⟨fun created => ⟨rfl, rfl, rfl, rfl⟩, rfl, rfl, rfl, rfl, rfl, ?_⟩
  show ("user-".toList.isPrefixOf (("user-" ++ toString now).toList)) = true
  exact List.isPrefixOf_iff_prefix.mpr (List.prefix_append _ _)

/-- C5: delete removes the record (by stringified id) from the community set,
the user set and the favorites set in one state transition; the transition does
not depend on the remote outcome (no rollback, no surfaced error); a remote
delete is issued exactly for `recipe:`-prefixed ids; and a deleted
`recipe:`-prefixed recipe is absent from the whole visible catalog. -/
theorem C5_optimistic_delete (s : AppState) (r : Recipe) (b : Bool) :
    ((handleDeleteRecipe s r b).1.communityRecipes =
      s.communityRecipes.filter fun x => !(x.id.toStr == r.id.toStr)) ∧
    ((handleDeleteRecipe s r b).1.userRecipes =
      s.userRecipes.filter fun x => !(x.id.toStr == r.id.toStr)) ∧
    ((handleDeleteRecipe s r b).1.favorites =
      s.favorites.filter fun x => !(x == r.id)) ∧
    r.id ∉ (handleDeleteRecipe s r b).1.favorites ∧
    handleDeleteRecipe s r true = handleDeleteRecipe s r false ∧
    ((handleDeleteRecipe s r b).2 = jsStartsWith r.id.toStr "recipe:") ∧
    ((handleDeleteRecipe s r b).1.syncError = s.syncError) ∧
    (∀ t, r.id = .str t → jsStartsWith t "recipe:" = true →
      r ∉ allRecipes (handleDeleteRecipe s r b).1) := by
  refine ⟨rfl, rfl, rfl, ?_, rfl, rfl, rfl, ?_⟩
  · intro hmem
    have := (List.mem_filter.mp hmem).2
    simp at this
  · intro t hid _ hmem
    have hfail : (handleDeleteRecipe s r b).1.communityRecipesLoadFailed =
        s.communityRecipesLoadFailed := rfl
    rw [allRecipes, hfail] at hmem
    by_cases hlf : s.communityRecipesLoadFailed
    · rw [if_pos hlf] at hmem
      rcases List.mem_append.mp hmem with h | h
      · exact notMem_defaultRecipes_of_str hid h
      · have := (List.mem_filter.mp h).2
        simp at this
    · rw [if_neg hlf] at hmem
      rcases List.mem_append.mp hmem with h | h
      · have := (List.mem_filter.mp h).2
        simp at this
      · have := (List.mem_filter.mp h).2
        simp at this

/-- Witness for C5: deleting a favorited community recipe under a failing
remote delete leaves it absent from the catalog. -/
theorem C5_optimistic_delete_witness :
    Draft.toRec d0 (.str "recipe:1:a") none ∉
      allRecipes
        (handleDeleteRecipe
          { s0 with communityRecipes := [Draft.toRec d0 (.str "recipe:1:a") none],
                    favorites := [.str "recipe:1:a"] }
          (Draft.toRec d0 (.str "recipe:1:a") none) true).1 := by
  exact
    (C5_optimistic_delete
      { s0 with communityRecipes := [Draft.toRec d0 (.str "recipe:1:a") none],
                favorites := [.str "recipe:1:a"] }
      (Draft.toRec d0 (.str "recipe:1:a") none) true).2.2.2.2.2.2.2
      "recipe:1:a" rfl (by decide)

theorem map_eq_self_of_mem {α : Type} {f : α → α} :
    ∀ {l : List α}, l.map f = l → ∀ x ∈ l, f x = x := by
  intro l
  induction l with
  | nil => intro _ x hx; cases hx
  | cons a t ih =>
      intro h x hx
      rw [List.map_cons] at h
      injection h with h1 h2
      rcases List.mem_cons.mp hx with rfl | hx
      · exact h1
      · exact ih h2 x hx

theorem instructionsPlaceholder_ne_empty : instructionsPlaceholder ≠ "" := by decide

theorem repairRecord_ne_of_patched {r : Recipe}
    (hn : strFalsy r.name = false) (hc : strFalsy r.contributor = false)
    (hp : r.ingredients = none ∨ strFalsy r.instructions = true) :
    repairRecord r ≠ r := by
  intro he
  have hcond : (strFalsy r.name || strFalsy r.contributor) = false := by
    rw [hn, hc]; rfl
  rw [repairRecord, hcond] at he
  simp only [Bool.false_eq_true, if_false] at he
  rcases hp with hp | hp
  · have : (some (r.ingredients.getD []) : Option (List String)) = r.ingredients :=
      congrArg Recipe.ingredients he
    rw [hp] at this
    cases this
  · have hins : (some (jsOrS r.instructions instructionsPlaceholder) : Option String) =
        r.instructions := congrArg Recipe.instructions he
    cases hi : r.instructions with
    | none => rw [hi] at hins; cases hins
    | some v =>
        rw [hi] at hins
        have hv : v = "" := by
          rw [hi] at hp
          simp only [strFalsy] at hp
          exact eq_of_beq hp
        rw [hv] at hins
        have : jsOrS (some "") instructionsPlaceholder = instructionsPlaceholder := rfl
        rw [this] at hins
        injection hins with hins
        exact instructionsPlaceholder_ne_empty hins

/-- C9: on load, a record retaining `name` and `contributor` but missing
`ingredients` or with falsy `instructions` is patched (empty ingredient list,
default instructions placeholder, all other fields kept) and the repaired list
is persisted back immediately; a record missing `name` or `contributor` is
returned as-is. -/
theorem C9_load_repair (saved : List Recipe) (r : Recipe) (hr : r ∈ saved) :
    (strFalsy r.name = true ∨ strFalsy r.contributor = true → repairRecord r = r) ∧
    (strFalsy r.name = false → strFalsy r.contributor = false →
      r.ingredients = none ∨ strFalsy r.instructions = true →
      (repairRecord r).name = r.name ∧
      (repairRecord r).contributor = r.contributor ∧
      (repairRecord r).id = r.id ∧
      (r.ingredients = none → (repairRecord r).ingredients = some []) ∧
      (r.ingredients ≠ none → (repairRecord r).ingredients = r.ingredients) ∧
      (strFalsy r.instructions = true →
        (repairRecord r).instructions = some instructionsPlaceholder) ∧
      (strFalsy r.instructions = false →
        (repairRecord r).instructions = r.instructions) ∧
      (loadUserRecipes saved).1 = saved.map repairRecord ∧
      (loadUserRecipes saved).2 = some (saved.map repairRecord)) := by
  constructor
  · intro h
    have hcond : (strFalsy r.name || strFalsy r.contributor) = true := by
      rcases h with h | h
      · rw [h]; rfl
      · rw [h, Bool.or_true]
    rw [repairRecord, hcond]
    simp
  · intro hn hc hp
    have hcond : (strFalsy r.name || strFalsy r.contributor) = false := by
      rw [hn, hc]; rfl
    have hpatched : repairRecord r =
        { r with ingredients := some (r.ingredients.getD []),
                 instructions := some (jsOrS r.instructions instructionsPlaceholder) } := by
      rw [repairRecord, hcond]
      simp
    refine ⟨by rw [hpatched], by rw [hpatched], by rw [hpatched], ?_, ?_, ?_, ?_, ?_, ?_⟩
    · intro hi; rw [hpatched, hi]; rfl
    · intro hi
      rw [hpatched]
      cases hx : r.ingredients with
      | none => exact absurd hx hi
      | some v => rfl
    · intro hi
      rw [hpatched]
      cases hx : r.instructions with
      | none => rfl
      | some v =>
          have hv : v = "" := by
            rw [hx] at hi
            simp only [strFalsy] at hi
            exact eq_of_beq hi
          rw [hv]
          rfl
    · intro hi
      rw [hpatched]
      cases hx : r.instructions with
      | none => rw [hx] at hi; simp [strFalsy] at hi
      | some v =>
          have hv : (v == "") = false := by
            rw [hx] at hi
            simp only [strFalsy] at hi
            simp [hi]
          simp [jsOrS, hv]
    · rfl
    · have hne : saved.map repairRecord ≠ saved := fun he =>
        repairRecord_ne_of_patched hn hc hp (map_eq_self_of_mem he r hr)
      have hlen : 0 < saved.length := List.length_pos.mpr (List.ne_nil_of_mem hr)
      have hlen' : 0 < (saved.map repairRecord).length := by
        rw [List.length_map]; exact hlen
      show (if 0 < (saved.map repairRecord).length then
          (if saved.map repairRecord = saved then none else some (saved.map repairRecord))
        else none) = some (saved.map repairRecord)
      rw [if_pos hlen', if_neg hne]

/-- Witness for C9: a stored record missing its ingredients (but with name and
contributor) is patched and the repaired list is written back. -/
theorem C9_load_repair_witness :
    ((repairRecord
        { id := .str "user-7", name := some "X", contributor := some "alice",
          emoji := none, color := none, ingredients := none,
          instructions := some "mix", servings := none, prepTime := none,
          containsFat := none, containsNuts := none, createdAt := none }).ingredients =
      some []) ∧
    (loadUserRecipes
        [{ id := .str "user-7", name := some "X", contributor := some "alice",
           emoji := none, color := none, ingredients := none,
           instructions := some "mix", servings := none, prepTime := none,
           containsFat := none, containsNuts := none, createdAt := none }]).2 =
      some ([{ id := .str "user-7", name := some "X", contributor := some "alice",
               emoji := none, color := none, ingredients := none,
               instructions := some "mix", servings := none, prepTime := none,
               containsFat := none, containsNuts := none,
               createdAt := none }].map repairRecord) := by
  have h := C9_load_repair
    [{ id := .str "user-7", name := some "X", contributor := some "alice",
       emoji := none, color := none, ingredients := none,
       instructions := some "mix", servings := none, prepTime := none,
       containsFat := none, containsNuts := none, createdAt := none }]
    { id := .str "user-7", name := some "X", contributor := some "alice",
      emoji := none, color := none, ingredients := none,
      instructions := some "mix", servings := none, prepTime := none,
      containsFat := none, containsNuts := none, createdAt := none }
    (List.mem_singleton.mpr rfl)
  have h2 := h.2 rfl rfl (Or.inl rfl)
  exact ⟨h2.2.2.2.1 rfl, h2.2.2.2.2.2.2.2.2⟩

/-- C10: the create endpoint answers 400 exactly when `name`, `contributor`,
`ingredients` or `instructions` is missing/falsy; missing optional fields are
filled with the defaults `🥤`, `#9333EA`, 1 serving, `5 min`, and `false` for
the two dietary flags; and an empty ingredients array passes the presence
check. -/
theorem C10_create_endpoint (d : Draft) (newId now : String) :
    ((∃ m, serverCreate d newId now = .badRequest m) ↔
      strFalsy d.name = true ∨ strFalsy d.contributor = true ∨
      d.ingredients = none ∨ strFalsy d.instructions = true) ∧
    (strFalsy d.name = false → strFalsy d.contributor = false →
      d.ingredients ≠ none → strFalsy d.instructions = false →
      ∃ r, serverCreate d newId now = .created r ∧
        r.name = d.name ∧ r.contributor = d.contributor ∧
        r.ingredients = d.ingredients ∧ r.instructions = d.instructions ∧
        (d.emoji = none → r.emoji = some "🥤") ∧
        (d.color = none → r.color = some "#9333EA") ∧
        (d.servings = none → r.servings = some 1) ∧
        (d.prepTime = none → r.prepTime = some "5 min") ∧
        (d.containsFat = none → r.containsFat = some false) ∧
        (d.containsNuts = none → r.containsNuts = some false)) ∧
    (strFalsy d.name = false → strFalsy d.contributor = false →
      d.ingredients = some [] → strFalsy d.instructions = false →
      ∃ r, serverCreate d newId now = .created r ∧ r.ingredients = some []) := by
  have hnotnone : ∀ (_ : d.ingredients ≠ none), d.ingredients.isNone = false := by
    intro h3
    cases hx : d.ingredients with
    | none => exact absurd hx h3
    | some v => rfl
  refine ⟨⟨?_, ?_⟩, ?_, ?_⟩
  · rintro ⟨m, hm⟩
    by_contra hnone
    push_neg at hnone
    obtain ⟨h1, h2, h3, h4⟩ := hnone
    simp only [ne_eq, Bool.not_eq_true] at h1 h2 h4
    have h3' := hnotnone h3
    rw [serverCreate, h1, h2, h3', h4] at hm
    simp at hm
  · intro h
    have hcond : (strFalsy d.name || strFalsy d.contributor ||
        d.ingredients.isNone || strFalsy d.instructions) = true := by
      rcases h with h | h | h | h
      · rw [h]; rfl
      · rw [h]; simp
      · rw [h]; simp
      · rw [h]; simp
    rw [serverCreate, hcond]
    exact ⟨missingFields d, by simp⟩
  · intro h1 h2 h3 h4
    have h3' := hnotnone h3
    refine ⟨{ id := .str newId, name := d.name, contributor := d.contributor,
              emoji := some (jsOrS d.emoji "🥤"),
              color := some (jsOrS d.color "#9333EA"),
              ingredients := d.ingredients, instructions := d.instructions,
              servings := some (jsOrN d.servings 1),
              prepTime := some (jsOrS d.prepTime "5 min"),
              containsFat := some (jsOrB d.containsFat false),
              containsNuts := some (jsOrB d.containsNuts false),
              createdAt := some now },
        ?_, rfl, rfl, rfl, rfl, ?_, ?_, ?_, ?_, ?_, ?_⟩
    · rw [serverCreate, h1, h2, h3', h4]
      simp
    all_goals intro hx
    all_goals rw [hx]
    all_goals rfl
  · intro h1 h2 h3 h4
    have h3' := hnotnone (by rw [h3]; intro hc; cases hc)
    refine ⟨{ id := .str newId, name := d.name, contributor := d.contributor,
              emoji := some (jsOrS d.emoji "🥤"),
              color := some (jsOrS d.color "#9333EA"),
              ingredients := d.ingredients, instructions := d.instructions,
              servings := some (jsOrN d.servings 1),
              prepTime := some (jsOrS d.prepTime "5 min"),
              containsFat := some (jsOrB d.containsFat false),
              containsNuts := some (jsOrB d.containsNuts false),
              createdAt := some now },
        ?_, h3⟩
    rw [serverCreate, h1, h2, h3', h4]
    simp

/-- Witness for C10: a draft with only the four required fields (and an empty
ingredients array) is accepted with all defaults filled in. -/
theorem C10_create_endpoint_witness :
    (∃ r, serverCreate
        { name := some "X", contributor := some "alice", emoji := none,
          color := none, ingredients := some [], instructions := some "mix",
          servings := none, prepTime := none, containsFat := none,
          containsNuts := none } "recipe:1:a" "2026-01-01" = .created r ∧
      r.ingredients = some []) ∧
    (∃ m, serverCreate
        { name := none, contributor := some "alice", emoji := none,
          color := none, ingredients := some [], instructions := some "mix",
          servings := none, prepTime := none, containsFat := none,
          containsNuts := none } "recipe:1:a" "2026-01-01" = .badRequest m) := by
  constructor
  · exact (C10_create_endpoint _ "recipe:1:a" "2026-01-01").2.2 rfl rfl rfl rfl
  · exact ((C10_create_endpoint _ "recipe:1:a" "2026-01-01").1).mpr (Or.inl rfl)

theorem recipePfx_not_userPfx (rest : String) :
    jsStartsWith ("recipe:" ++ rest) "user-" = false := by
  show ("user-".toList.isPrefixOf (("recipe:" ++ rest).toList)) = false
  have h : ("recipe:" ++ rest).toList = "recipe:".toList ++ rest.toList := rfl
  rw [h]
  rfl

/-- C2 (amended): `handleUpdateRecipe` always calls the remote client first.
On remote success (for any id) the community set is patched in place, the
Local Fallback Store is untouched, and success is reported. On remote failure,
a `user-`-prefixed id patches the record in place inside the Local Fallback
Store and reports success, while any other id — in particular a
`recipe:`-prefixed one — reports failure (`false`) with no state change and no
local fallback. -/
theorem C2_update_routing (a : Auth) (s : AppState) (recipeId : String) (d : Draft)
    (remote : RemoteResult) :
    ((handleUpdateRecipe a s recipeId d remote).2.2 = true) ∧
    (∀ u, remote = .ok u →
      (handleUpdateRecipe a s recipeId d remote).2.1 = true ∧
      (handleUpdateRecipe a s recipeId d remote).1.userRecipes = s.userRecipes ∧
      (handleUpdateRecipe a s recipeId d remote).1.communityRecipes =
        s.communityRecipes.map fun r => if r.id == Rid.str recipeId then u else r) ∧
    (remote = .err → jsStartsWith recipeId "user-" = false →
      handleUpdateRecipe a s recipeId d remote = (s, false, true)) ∧
    (remote = .err → jsStartsWith recipeId "user-" = true →
      (handleUpdateRecipe a s recipeId d remote).2.1 = true ∧
      (handleUpdateRecipe a s recipeId d remote).1.communityRecipes =
        s.communityRecipes ∧
      (handleUpdateRecipe a s recipeId d remote).1.userRecipes =
        s.userRecipes.map fun r =>
          if r.id == Rid.str recipeId then
            r.patch { d with contributor := resolvedContributor a d.contributor }
          else r) ∧
    (remote = .err → ∀ rest, recipeId = "recipe:" ++ rest →
      handleUpdateRecipe a s recipeId d remote = (s, false, true)) := by
  refine ⟨?_, ?_, ?_, ?_, ?_⟩
  · cases remote with
    | ok u => rfl
    | err =>
        show (if jsStartsWith recipeId "user-" then _ else (s, false, true)).2.2 = true
        by_cases h : jsStartsWith recipeId "user-"
        · rw [if_pos h]
        · rw [if_neg h]
  · rintro u rfl
    exact ⟨rfl, rfl, rfl⟩
  · rintro rfl hpfx
    simp [handleUpdateRecipe, hpfx]
  · rintro rfl hpfx
    simp [handleUpdateRecipe, hpfx]
  · rintro rfl rest rfl
    simp [handleUpdateRecipe, recipePfx_not_userPfx rest]

/-- Witness for C2 (amended): a failing remote update for a `recipe:`-prefixed
id reports `false` and changes nothing; a failing remote update for a
`user-`-prefixed id patches the local store in place and reports `true`. -/
theorem C2_update_routing_witness :
    (handleUpdateRecipe a0 s0 ("recipe:" ++ "9:z") d0 .err = (s0, false, true)) ∧
    ((handleUpdateRecipe a0 s0 "user-456" d0 .err).2.1 = true ∧
     (handleUpdateRecipe a0 s0 "user-456" d0 .err).1.communityRecipes =
       s0.communityRecipes ∧
     (handleUpdateRecipe a0 s0 "user-456" d0 .err).1.userRecipes =
       s0.userRecipes.map fun r =>
         if r.id == Rid.str "user-456" then
           r.patch { d0 with contributor := resolvedContributor a0 d0.contributor }
         else r) := by
  constructor
  · exact (C2_update_routing a0 s0 ("recipe:" ++ "9:z") d0 .err).2.2.2.2 rfl "9:z" rfl
  · exact (C2_update_routing a0 s0 "user-456" d0 .err).2.2.2.1 rfl (by decide)

/-- C2 is refuted as stated: the claim demands that an update of a
`user-`-prefixed id never call the remote client, but `handleUpdateRecipe`
unconditionally calls `updateCommunityRecipe` first and only falls back to the
Local Fallback Store inside the `catch`. At the concrete input `"user-456"`
the remote client is called. -/
theorem C2_counterexample :
    jsStartsWith "user-456" "user-" = true ∧
    (handleUpdateRecipe a0 s0 "user-456" d0 RemoteResult.err).2.2 = true := by
  constructor
  · decide
  · decide

theorem syncLoop_toRemove_mono {outcome : Recipe → RemoteResult} :
    ∀ (l : List Recipe) (acc : SyncAcc) (x : Rid),
      x ∈ acc.toRemove → x ∈ (syncLoop outcome l acc).toRemove := by
  intro l
  induction l with
  | nil => intro acc x hx; exact hx
  | cons r rest ih =>
      intro acc x hx
      simp only [syncLoop]
      by_cases hv : recValid r.draft
      · rw [if_pos hv]
        cases ho : outcome r with
        | ok c => exact ih _ x (List.mem_append_left _ hx)
        | err => exact ih _ x hx
      · rw [if_neg hv]
        exact ih _ x hx

theorem syncLoop_toFix_mono {outcome : Recipe → RemoteResult} :
    ∀ (l : List Recipe) (acc : SyncAcc) (p : Rid × List String),
      p ∈ acc.toFix → p ∈ (syncLoop outcome l acc).toFix := by
  intro l
  induction l with
  | nil => intro acc p hp; exact hp
  | cons r rest ih =>
      intro acc p hp
      simp only [syncLoop]
      by_cases hv : recValid r.draft
      · rw [if_pos hv]
        cases ho : outcome r with
        | ok c => exact ih _ p hp
        | err => exact ih _ p hp
      · rw [if_neg hv]
        exact ih _ p (List.mem_append_left _ hp)

theorem syncLoop_community_mono {outcome : Recipe → RemoteResult} :
    ∀ (l : List Recipe) (acc : SyncAcc) (x : Rid),
      x ∈ acc.community.map Recipe.id →
      x ∈ (syncLoop outcome l acc).community.map Recipe.id := by
  intro l
  induction l with
  | nil => intro acc x hx; exact hx
  | cons r rest ih =>
      intro acc x hx
      simp only [syncLoop]
      by_cases hv : recValid r.draft
      · rw [if_pos hv]
        cases ho : outcome r with
        | ok c =>
            refine ih _ x ?_
            rw [guardInsert]
            by_cases hg : acc.community.any fun q => q.id == c.id
            · rw [if_pos hg]; exact hx
            · rw [if_neg hg]
              rw [List.map_append]
              exact List.mem_append_left _ hx
        | err => exact ih _ x hx
      · rw [if_neg hv]
        exact ih _ x hx

theorem syncLoop_toRemove_mem {outcome : Recipe → RemoteResult} :
    ∀ (l : List Recipe) (acc : SyncAcc) (r : Recipe) (c : Recipe),
      r ∈ l → recValid r.draft = true → outcome r = .ok c →
      r.id ∈ (syncLoop outcome l acc).toRemove := by
  intro l
  induction l with
  | nil => intro acc r c hr; cases hr
  | cons q rest ih =>
      intro acc r c hr hv ho
      simp only [syncLoop]
      rcases List.mem_cons.mp hr with rfl | hr
      · rw [if_pos hv, ho]
        exact syncLoop_toRemove_mono _ _ _
          (List.mem_append_right _ (List.mem_singleton.mpr rfl))
      · by_cases hq : recValid q.draft
        · rw [if_pos hq]
          cases hoq : outcome q with
          | ok c' => exact ih _ r c hr hv ho
          | err => exact ih _ r c hr hv ho
        · rw [if_neg hq]
          exact ih _ r c hr hv ho

theorem syncLoop_toRemove_src {outcome : Recipe → RemoteResult} :
    ∀ (l : List Recipe) (acc : SyncAcc) (x : Rid),
      x ∈ (syncLoop outcome l acc).toRemove →
      x ∈ acc.toRemove ∨ ∃ r ∈ l, recValid r.draft = true ∧ x = r.id := by
  intro l
  induction l with
  | nil => intro acc x hx; exact Or.inl hx
  | cons q rest ih =>
      intro acc x hx
      simp only [syncLoop] at hx
      by_cases hq : recValid q.draft
      · rw [if_pos hq] at hx
        cases hoq : outcome q with
        | ok c =>
            rw [hoq] at hx
            rcases ih _ x hx with hin | ⟨r, hr, hvr, hxr⟩
            · rcases List.mem_append.mp hin with hin | hin
              · exact Or.inl hin
              · exact Or.inr ⟨q, List.mem_cons_self _ _,
                  hq, List.mem_singleton.mp hin⟩
            · exact Or.inr ⟨r, List.mem_cons_of_mem _ hr, hvr, hxr⟩
        | err =>
            rw [hoq] at hx
            rcases ih _ x hx with hin | ⟨r, hr, hvr, hxr⟩
            · exact Or.inl hin
            · exact Or.inr ⟨r, List.mem_cons_of_mem _ hr, hvr, hxr⟩
      · rw [if_neg hq] at hx
        rcases ih _ x hx with hin | ⟨r, hr, hvr, hxr⟩
        · exact Or.inl hin
        · exact Or.inr ⟨r, List.mem_cons_of_mem _ hr, hvr, hxr⟩

theorem syncLoop_toFix_mem {outcome : Recipe → RemoteResult} :
    ∀ (l : List Recipe) (acc : SyncAcc) (r : Recipe),
      r ∈ l → recValid r.draft = false →
      (r.id, missingFields r.draft) ∈ (syncLoop outcome l acc).toFix := by
  intro l
  induction l with
  | nil => intro acc r hr; cases hr
  | cons q rest ih =>
      intro acc r hr hv
      simp only [syncLoop]
      rcases List.mem_cons.mp hr with rfl | hr
      · rw [if_neg (by rw [hv]; intro hc; cases hc)]
        exact syncLoop_toFix_mono _ _ _
          (List.mem_append_right _ (List.mem_singleton.mpr rfl))
      · by_cases hq : recValid q.draft
        · rw [if_pos hq]
          cases hoq : outcome q with
          | ok c => exact ih _ r hr hv
          | err => exact ih _ r hr hv
        · rw [if_neg hq]
          exact ih _ r hr hv

theorem syncLoop_toFix_src {outcome : Recipe → RemoteResult} :
    ∀ (l : List Recipe) (acc : SyncAcc) (p : Rid × List String),
      p ∈ (syncLoop outcome l acc).toFix →
      p ∈ acc.toFix ∨ ∃ r ∈ l, recValid r.draft = false ∧
        p = (r.id, missingFields r.draft) := by
  intro l
  induction l with
  | nil => intro acc p hp; exact Or.inl hp
  | cons q rest ih =>
      intro acc p hp
      simp only [syncLoop] at hp
      by_cases hq : recValid q.draft
      · rw [if_pos hq] at hp
        cases hoq : outcome q with
        | ok c =>
            rw [hoq] at hp
            rcases ih _ p hp with hin | ⟨r, hr, hvr, hpr⟩
            · exact Or.inl hin
            · exact Or.inr ⟨r, List.mem_cons_of_mem _ hr, hvr, hpr⟩
        | err =>
            rw [hoq] at hp
            rcases ih _ p hp with hin | ⟨r, hr, hvr, hpr⟩
            · exact Or.inl hin
            · exact Or.inr ⟨r, List.mem_cons_of_mem _ hr, hvr, hpr⟩
      · rw [if_neg hq] at hp
        rcases ih _ p hp with hin | ⟨r, hr, hvr, hpr⟩
        · rcases List.mem_append.mp hin with hin | hin
          · exact Or.inl hin
          · exact Or.inr ⟨q, List.mem_cons_self _ _,
              Bool.not_eq_true _ ▸ hq, List.mem_singleton.mp hin⟩
        · exact Or.inr ⟨r, List.mem_cons_of_mem _ hr, hvr, hpr⟩

theorem syncLoop_submitted_valid {outcome : Recipe → RemoteResult} :
    ∀ (l : List Recipe) (acc : SyncAcc),
      (∀ d ∈ acc.submitted, recValid d = true) →
      ∀ d ∈ (syncLoop outcome l acc).submitted, recValid d = true := by
  intro l
  induction l with
  | nil => intro acc hacc d hd; exact hacc d hd
  | cons q rest ih =>
      intro acc hacc d hd
      simp only [syncLoop] at hd
      by_cases hq : recValid q.draft
      · rw [if_pos hq] at hd
        cases hoq : outcome q with
        | ok c =>
            rw [hoq] at hd
            refine ih _ ?_ d hd
            intro x hx
            rcases List.mem_append.mp hx with hx | hx
            · exact hacc x hx
            · rw [List.mem_singleton.mp hx]; exact hq
        | err =>
            rw [hoq] at hd
            refine ih _ ?_ d hd
            intro x hx
            rcases List.mem_append.mp hx with hx | hx
            · exact hacc x hx
            · rw [List.mem_singleton.mp hx]; exact hq
      · rw [if_neg hq] at hd
        exact ih { acc with toFix := acc.toFix ++ [(q.id, missingFields q.draft)] }
          hacc d hd

theorem syncLoop_created_mem {outcome : Recipe → RemoteResult} :
    ∀ (l : List Recipe) (acc : SyncAcc) (r : Recipe) (c : Recipe),
      r ∈ l → recValid r.draft = true → outcome r = .ok c →
      c.id ∈ (syncLoop outcome l acc).community.map Recipe.id := by
  intro l
  induction l with
  | nil => intro acc r c hr; cases hr
  | cons q rest ih =>
      intro acc r c hr hv ho
      simp only [syncLoop]
      rcases List.mem_cons.mp hr with rfl | hr
      · rw [if_pos hv, ho]
        refine syncLoop_community_mono _ _ _ ?_
        rw [guardInsert]
        by_cases hg : acc.community.any fun q => q.id == c.id
        · rw [if_pos hg]
          obtain ⟨x, hx, hbeq⟩ := List.any_eq_true.mp hg
          have hxid : x.id = c.id := by
            exact eq_of_beq hbeq
          rw [← hxid]
          exact List.mem_map_of_mem Recipe.id hx
        · rw [if_neg hg]
          rw [List.map_append]
          exact List.mem_append_right _ (List.mem_singleton.mpr rfl)
      · by_cases hq : recValid q.draft
        · rw [if_pos hq]
          cases hoq : outcome q with
          | ok c' => exact ih _ r c hr hv ho
          | err => exact ih _ r c hr hv ho
        · rw [if_neg hq]
          exact ih _ r c hr hv ho

theorem guardInsert_nodup {community : List Recipe} {c : Recipe}
    (h : (community.map Recipe.id).Nodup) :
    ((guardInsert community c).map Recipe.id).Nodup := by
  rw [guardInsert]
  by_cases hg : community.any fun q => q.id == c.id
  · rw [if_pos hg]; exact h
  · rw [if_neg hg]
    rw [List.map_append]
    refine List.Nodup.append h (List.nodup_singleton _) ?_
    intro x hx hx'
    rw [List.map_singleton, List.mem_singleton] at hx'
    obtain ⟨q, hq, hqid⟩ := List.mem_map.mp hx
    refine hg ?_
    refine List.any_eq_true.mpr ⟨q, hq, ?_⟩
    rw [hqid, hx']
    exact beq_self_eq_true _

theorem syncLoop_nodup {outcome : Recipe → RemoteResult} :
    ∀ (l : List Recipe) (acc : SyncAcc),
      (acc.community.map Recipe.id).Nodup →
      ((syncLoop outcome l acc).community.map Recipe.id).Nodup := by
  intro l
  induction l with
  | nil => intro acc h; exact h
  | cons q rest ih =>
      intro acc h
      simp only [syncLoop]
      by_cases hq : recValid q.draft
      · rw [if_pos hq]
        cases hoq : outcome q with
        | ok c => exact ih _ (guardInsert_nodup h)
        | err => exact ih _ h
      · rw [if_neg hq]
        exact ih _ h

theorem mem_missingFields_iff (x : String) (d : Draft) :
    x ∈ missingFields d ↔
      (x = "name" ∧ strFalsy d.name = true) ∨
      (x = "contributor" ∧ strFalsy d.contributor = true) ∨
      (x = "ingredients" ∧ d.ingredients.isNone = true) ∨
      (x = "instructions" ∧ strFalsy d.instructions = true) := by
  rw [missingFields]
  split_ifs with h1 h2 h3 h4 <;>
    simp_all [Bool.not_eq_true]

/-- The loop result of a migration pass, starting from the current state. -/
def syncRes (s : AppState) (outcome : Recipe → RemoteResult) : SyncAcc :=
  syncLoop outcome s.userRecipes
    { community := s.communityRecipes, toRemove := [], toFix := [], submitted := [] }

/-- The user store after dropping successfully migrated records. -/
def syncUser1 (s : AppState) (outcome : Recipe → RemoteResult) : List Recipe :=
  if (syncRes s outcome).toRemove.isEmpty then s.userRecipes
  else s.userRecipes.filter fun r => !((syncRes s outcome).toRemove.contains r.id)

/-- The ids of unfixably incomplete records slated for silent removal. -/
def syncToDelete (s : AppState) (outcome : Recipe → RemoteResult) : List Rid :=
  ((syncRes s outcome).toFix.filter fun p =>
    p.2.contains "name" || p.2.contains "contributor").map Prod.fst

/-- The user store after additionally dropping unfixable records. -/
def syncUser2 (s : AppState) (outcome : Recipe → RemoteResult) : List Recipe :=
  if (syncRes s outcome).toFix.isEmpty then syncUser1 s outcome
  else if (syncToDelete s outcome).isEmpty then syncUser1 s outcome
  else (syncUser1 s outcome).filter fun r => !((syncToDelete s outcome).contains r.id)

theorem syncLocalRecipes_eq {a : Auth} {s : AppState}
    {outcome : Recipe → RemoteResult} {e : String}
    (ha : a.user = some e) (hne : s.userRecipes ≠ []) :
    syncLocalRecipes a s outcome =
      ({ s with communityRecipes := (syncRes s outcome).community,
                userRecipes := syncUser2 s outcome },
       (syncRes s outcome).submitted) := by
  have hemp : s.userRecipes.isEmpty = false := by
    cases hu : s.userRecipes with
    | nil => exact absurd hu hne
    | cons q t => rfl
  rw [syncLocalRecipes, hemp, ha]
  rfl

/-- C6: when a migration pass successfully creates a local record remotely, the
original local record's id is gone from the Local Fallback Store afterwards,
the created record's id is present in the in-memory community set, and —
because every insertion during the pass is guarded by an id-equality check —
distinctness of community ids is preserved even if a concurrent refresh
already pulled the created record in. -/
theorem C6_dedup_migration (a : Auth) (s : AppState)
    (outcome : Recipe → RemoteResult) (r created : Recipe) (e : String)
    (ha : a.user = some e) (hr : r ∈ s.userRecipes)
    (hv : recValid r.draft = true) (ho : outcome r = .ok created) :
    (∀ x ∈ (syncLocalRecipes a s outcome).1.userRecipes, x.id ≠ r.id) ∧
    created.id ∈ (syncLocalRecipes a s outcome).1.communityRecipes.map Recipe.id ∧
    ((s.communityRecipes.map Recipe.id).Nodup →
      ((syncLocalRecipes a s outcome).1.communityRecipes.map Recipe.id).Nodup) := by
  have hne : s.userRecipes ≠ [] := List.ne_nil_of_mem hr
  rw [syncLocalRecipes_eq ha hne]
  have hrem : r.id ∈ (syncRes s outcome).toRemove :=
    syncLoop_toRemove_mem _ _ r created hr hv ho
  have hremne : ¬((syncRes s outcome).toRemove.isEmpty = true) := by
    cases hu : (syncRes s outcome).toRemove with
    | nil => rw [hu] at hrem; cases hrem
    | cons q t => intro hc; cases hc
  refine ⟨?_, ?_, ?_⟩
  · intro x hx hxid
    have hx1 : x ∈ syncUser1 s outcome := by
      rw [syncUser2] at hx
      by_cases hfix : (syncRes s outcome).toFix.isEmpty = true
      · rwa [if_pos hfix] at hx
      · rw [if_neg hfix] at hx
        by_cases hdel : (syncToDelete s outcome).isEmpty = true
        · rwa [if_pos hdel] at hx
        · rw [if_neg hdel] at hx
          exact (List.mem_filter.mp hx).1
    rw [syncUser1, if_neg hremne] at hx1
    have hfil := (List.mem_filter.mp hx1).2
    rw [hxid] at hfil
    have helem : (syncRes s outcome).toRemove.contains r.id = true :=
      List.elem_eq_true_of_mem hrem
    rw [helem] at hfil
    cases hfil
  · exact syncLoop_created_mem _ _ r created hr hv ho
  · intro hnd
    exact syncLoop_nodup _ _ hnd

/-- A complete local fallback record used to instantiate migration theorems. -/
def rLocal : Recipe := Draft.toRec d0 (.str "user-1700000000000") none

/-- The remote record returned for `rLocal` by a successful migration create. -/
def rCreated : Recipe :=
  Draft.toRec d0 (.str "recipe:1700000000001:xy1") (some "2026-01-01")

/-- Witness for C6, the spec's own scenario: a complete local record is
migrated; afterwards its id has left the local store, the created id is in the
community set, and community ids stay distinct. -/
theorem C6_dedup_migration_witness :
    (∀ x ∈ (syncLocalRecipes a0 { s0 with userRecipes := [rLocal] }
        (fun _ => .ok rCreated)).1.userRecipes, x.id ≠ rLocal.id) ∧
    rCreated.id ∈ (syncLocalRecipes a0 { s0 with userRecipes := [rLocal] }
        (fun _ => .ok rCreated)).1.communityRecipes.map Recipe.id ∧
    ((({ s0 with userRecipes := [rLocal] } :
        AppState).communityRecipes.map Recipe.id).Nodup →
      ((syncLocalRecipes a0 { s0 with userRecipes := [rLocal] }
          (fun _ => .ok rCreated)).1.communityRecipes.map Recipe.id).Nodup) := by
  exact C6_dedup_migration a0 { s0 with userRecipes := [rLocal] }
    (fun _ => .ok rCreated) rLocal rCreated "alice@example.com"
    rfl (List.mem_singleton.mpr rfl) (by decide) rfl

/-- C3 (amended): during a migration pass a local record failing the presence
validation (`name`, `contributor` truthy, `ingredients` present,
`instructions` truthy) is never submitted via remote create and no error is
surfaced; it is silently discarded exactly when it is missing `name` or
`contributor`, while a record failing the validation only on
`ingredients`/`instructions` presence is retained for retry on a later pass.
(The load-time repair step guarantees that a store freshly loaded from disk has
no such merely-ingredient/instruction-incomplete records, so within a full app
run the discarded records are exactly the validation failures.) -/
theorem C3_migration_discard (a : Auth) (s : AppState)
    (outcome : Recipe → RemoteResult) (r : Recipe) (e : String)
    (ha : a.user = some e) (hr : r ∈ s.userRecipes)
    (hnd : (s.userRecipes.map Recipe.id).Nodup)
    (hinv : recValid r.draft = false) :
    r.draft ∉ (syncLocalRecipes a s outcome).2 ∧
    (syncLocalRecipes a s outcome).1.syncError = s.syncError ∧
    (strFalsy r.name = true ∨ strFalsy r.contributor = true →
      ∀ x ∈ (syncLocalRecipes a s outcome).1.userRecipes, x.id ≠ r.id) ∧
    (strFalsy r.name = false → strFalsy r.contributor = false →
      r ∈ (syncLocalRecipes a s outcome).1.userRecipes) := by
  have hne : s.userRecipes ≠ [] := List.ne_nil_of_mem hr
  rw [syncLocalRecipes_eq ha hne]
  have hfixmem : (r.id, missingFields r.draft) ∈ (syncRes s outcome).toFix :=
    syncLoop_toFix_mem _ _ r hr hinv
  have hfixne : ¬((syncRes s outcome).toFix.isEmpty = true) := by
    cases hu : (syncRes s outcome).toFix with
    | nil => rw [hu] at hfixmem; cases hfixmem
    | cons q t => intro hc; cases hc
  refine ⟨?_, rfl, ?_, ?_⟩
  · intro hsub
    have hval : recValid r.draft = true :=
      syncLoop_submitted_valid _ _ (fun d hd => absurd hd (List.not_mem_nil d))
        r.draft hsub
    rw [hinv] at hval
    cases hval
  · intro hcrit x hx hxid
    have hmf : ((missingFields r.draft).contains "name" ||
        (missingFields r.draft).contains "contributor") = true := by
      show (List.elem "name" (missingFields r.draft) ||
        List.elem "contributor" (missingFields r.draft)) = true
      rcases hcrit with hc | hc
      · have hm : "name" ∈ missingFields r.draft :=
          (mem_missingFields_iff _ _).mpr (Or.inl ⟨rfl, hc⟩)
        rw [List.elem_eq_true_of_mem hm]
        rfl
      · have hm : "contributor" ∈ missingFields r.draft :=
          (mem_missingFields_iff _ _).mpr (Or.inr (Or.inl ⟨rfl, hc⟩))
        rw [List.elem_eq_true_of_mem hm, Bool.or_true]
    have hdelmem : r.id ∈ syncToDelete s outcome := by
      rw [syncToDelete]
      refine List.mem_map.mpr ⟨(r.id, missingFields r.draft), ?_, rfl⟩
      exact List.mem_filter.mpr ⟨hfixmem, hmf⟩
    have hdelne : ¬((syncToDelete s outcome).isEmpty = true) := by
      cases hu : syncToDelete s outcome with
      | nil => rw [hu] at hdelmem; cases hdelmem
      | cons q t => intro hc; cases hc
    rw [syncUser2, if_neg hfixne, if_neg hdelne] at hx
    have hfil : (!(List.elem x.id (syncToDelete s outcome))) = true :=
      (List.mem_filter.mp hx).2
    rw [hxid, List.elem_eq_true_of_mem hdelmem] at hfil
    cases hfil
  · intro hnm hcb
    have hnotrem : r.id ∉ (syncRes s outcome).toRemove := by
      intro hmem
      rcases syncLoop_toRemove_src _ _ r.id hmem with hbase | ⟨r', hr', hvr', hid⟩
      · cases hbase
      · have : r' = r :=
          List.inj_on_of_nodup_map hnd hr' hr (by rw [← hid])
        rw [this] at hvr'
        rw [hinv] at hvr'
        cases hvr'
    have hu1 : r ∈ syncUser1 s outcome := by
      rw [syncUser1]
      by_cases hremp : (syncRes s outcome).toRemove.isEmpty = true
      · rwa [if_pos hremp]
      · rw [if_neg hremp]
        refine List.mem_filter.mpr ⟨hr, ?_⟩
        have hcont : (syncRes s outcome).toRemove.contains r.id = false := by
          rw [Bool.eq_false_iff]
          intro hc
          exact hnotrem (List.mem_of_elem_eq_true hc)
        rw [hcont]
        rfl
    have hnotdel : r.id ∉ syncToDelete s outcome := by
      intro hmem
      rw [syncToDelete] at hmem
      obtain ⟨p, hp, hpid⟩ := List.mem_map.mp hmem
      obtain ⟨hpfix, hppred⟩ := List.mem_filter.mp hp
      rcases syncLoop_toFix_src _ _ p hpfix with hbase | ⟨r', hr', hvr', hpr⟩
      · cases hbase
      · have hidr : r' = r := by
          refine List.inj_on_of_nodup_map hnd hr' hr ?_
          rw [← hpid, hpr]
        rw [hidr] at hpr
        rw [hpr] at hppred
        rcases Bool.or_eq_true_iff.mp hppred with hc | hc
        · have := (mem_missingFields_iff "name" r.draft).mp
            (List.mem_of_elem_eq_true hc)
          rcases this with ⟨_, hfn⟩ | ⟨hcs, _⟩ | ⟨hcs, _⟩ | ⟨hcs, _⟩
          · have : r.draft.name = r.name := rfl
            rw [this, hnm] at hfn
            cases hfn
          all_goals exact absurd hcs (by decide)
        · have := (mem_missingFields_iff "contributor" r.draft).mp
            (List.mem_of_elem_eq_true hc)
          rcases this with ⟨hcs, _⟩ | ⟨_, hfn⟩ | ⟨hcs, _⟩ | ⟨hcs, _⟩
          · exact absurd hcs (by decide)
          · have : r.draft.contributor = r.contributor := rfl
            rw [this, hcb] at hfn
            cases hfn
          all_goals exact absurd hcs (by decide)
    rw [syncUser2, if_neg hfixne]
    by_cases hdelp : (syncToDelete s outcome).isEmpty = true
    · rwa [if_pos hdelp]
    · rw [if_neg hdelp]
      refine List.mem_filter.mpr ⟨hu1, ?_⟩
      have hcont : (syncToDelete s outcome).contains r.id = false := by
        rw [Bool.eq_false_iff]
        intro hc
        exact hnotdel (List.mem_of_elem_eq_true hc)
      rw [hcont]
      rfl

/-- A local record missing only its ingredient list: it fails the presence
validation but is not critically incomplete. -/
def rNoIng : Recipe :=
  { id := .str "user-8", name := some "X", contributor := some "alice",
    emoji := none, color := none, ingredients := none,
    instructions := some "mix", servings := none, prepTime := none,
    containsFat := none, containsNuts := none, createdAt := none }

/-- A local record whose ingredient list is present but empty: it passes the
presence validation. -/
def rEmptyIng : Recipe :=
  { id := .str "user-9", name := some "Y", contributor := some "alice",
    emoji := none, color := none, ingredients := some [],
    instructions := some "stir", servings := none, prepTime := none,
    containsFat := none, containsNuts := none, createdAt := none }

/-- A local record missing its contributor: critically incomplete. -/
def rNoContrib : Recipe :=
  { id := .str "user-10", name := some "Z", contributor := none,
    emoji := none, color := none, ingredients := some ["a"],
    instructions := some "mix", servings := none, prepTime := none,
    containsFat := none, containsNuts := none, createdAt := none }

/-- A remote outcome in which every create call fails. -/
def outErr : Recipe → RemoteResult := fun _ => .err

/-- Witness for C3 (amended): a record missing its contributor is neither
submitted nor kept, while a record missing only its ingredient list survives
the pass for a later retry; neither case surfaces an error. -/
theorem C3_migration_discard_witness :
    (rNoContrib.draft ∉
      (syncLocalRecipes a0 { s0 with userRecipes := [rNoContrib] } outErr).2 ∧
     ∀ x ∈ (syncLocalRecipes a0 { s0 with userRecipes := [rNoContrib] }
        outErr).1.userRecipes, x.id ≠ rNoContrib.id) ∧
    (rNoIng ∈ (syncLocalRecipes a0 { s0 with userRecipes := [rNoIng] }
        outErr).1.userRecipes ∧
     (syncLocalRecipes a0 { s0 with userRecipes := [rNoIng] } outErr).1.syncError =
       ({ s0 with userRecipes := [rNoIng] } : AppState).syncError) := by
  have h1 := C3_migration_discard a0 { s0 with userRecipes := [rNoContrib] }
    outErr rNoContrib "alice@example.com" rfl (List.mem_singleton.mpr rfl)
    (by decide) (by decide)
  have h2 := C3_migration_discard a0 { s0 with userRecipes := [rNoIng] }
    outErr rNoIng "alice@example.com" rfl (List.mem_singleton.mpr rfl)
    (by decide) (by decide)
  exact ⟨⟨h1.1, h1.2.2.1 (Or.inr rfl)⟩, ⟨h2.2.2.2 rfl rfl, h2.2.1⟩⟩

/-- C3 is refuted as stated: in a pass over the concrete store
`[rNoIng, rEmptyIng]` with every remote create failing, the record `rNoIng`
fails the claimed minimal-completeness validation (its ingredients are absent)
and is skipped, yet it is NOT discarded from the Local Fallback Store — it
remains for retry; and the record `rEmptyIng`, whose ingredient list is empty
(hence not "non-empty"), IS submitted via remote create, because the code only
checks presence, not non-emptiness. -/
theorem C3_counterexample :
    rNoIng ∈ (syncLocalRecipes a0
        { s0 with userRecipes := [rNoIng, rEmptyIng] } outErr).1.userRecipes ∧
    rNoIng.draft ∉ (syncLocalRecipes a0
        { s0 with userRecipes := [rNoIng, rEmptyIng] } outErr).2 ∧
    rEmptyIng.ingredients = some [] ∧
    rEmptyIng.draft ∈ (syncLocalRecipes a0
        { s0 with userRecipes := [rNoIng, rEmptyIng] } outErr).2 := by
  refine ⟨?_, ?_, rfl, ?_⟩
  · decide
  · decide
  · decide

theorem char_eq_pct_of_toNat {c : Char} (h : c.toNat = 37) : c = '%' := by
  have h2 := Char.ofNat_toNat c
  rw [h] at h2
  rw [← h2]

theorem hexDigit_bounded_ne_colon : ∀ n, n < 16 → hexDigit n ≠ ':' := by decide

theorem hexDigit_bounded_ne_pct : ∀ n, n < 16 → hexDigit n ≠ '%' := by decide

theorem hexDigit_ne_colon (n : Nat) : hexDigit n ≠ ':' := by
  by_cases h : n < 16
  · exact hexDigit_bounded_ne_colon n h
  · rw [hexDigit, List.getD_eq_default _ _ (by push_neg at h; exact h)]
    decide

theorem hexDigit_ne_pct (n : Nat) : hexDigit n ≠ '%' := by
  by_cases h : n < 16
  · exact hexDigit_bounded_ne_pct n h
  · rw [hexDigit, List.getD_eq_default _ _ (by push_neg at h; exact h)]
    decide

theorem hexDigit_bounded_two : ∀ n, n < 16 → hexDigit n = '2' → n = 2 := by decide

theorem hexDigit_bounded_five : ∀ n, n < 16 → hexDigit n = '5' → n = 5 := by decide

theorem hexDigit_eq_two {n : Nat} (h : hexDigit n = '2') : n = 2 := by
  by_cases hb : n < 16
  · exact hexDigit_bounded_two n hb h
  · rw [hexDigit, List.getD_eq_default _ _ (by push_neg at hb; exact hb)] at h
    cases h

theorem hexDigit_eq_five {n : Nat} (h : hexDigit n = '5') : n = 5 := by
  by_cases hb : n < 16
  · exact hexDigit_bounded_five n hb h
  · rw [hexDigit, List.getD_eq_default _ _ (by push_neg at hb; exact hb)] at h
    cases h

theorem utf8Bytes_byte37 {c : Char} (h : 37 ∈ utf8Bytes c) : c = '%' := by
  rw [utf8Bytes] at h
  by_cases h1 : c.toNat < 128
  · rw [if_pos h1] at h
    rw [List.mem_singleton] at h
    exact char_eq_pct_of_toNat h.symm
  · rw [if_neg h1] at h
    push_neg at h1
    by_cases h2 : c.toNat < 2048
    · rw [if_pos h2] at h
      rcases List.mem_cons.mp h with h | h
      · omega
      · rw [List.mem_singleton] at h
        omega
    · rw [if_neg h2] at h
      by_cases h3 : c.toNat < 65536
      · rw [if_pos h3] at h
        rcases List.mem_cons.mp h with h | h
        · omega
        rcases List.mem_cons.mp h with h | h
        · omega
        · rw [List.mem_singleton] at h
          omega
      · rw [if_neg h3] at h
        rcases List.mem_cons.mp h with h | h
        · push_neg at h3
          omega
        rcases List.mem_cons.mp h with h | h
        · omega
        rcases List.mem_cons.mp h with h | h
        · omega
        · rw [List.mem_singleton] at h
          omega

theorem pctByte_byte37 {b : Nat}
    (h2 : hexDigit (b / 16) = '2') (h5 : hexDigit (b % 16) = '5') : b = 37 := by
  have ha := hexDigit_eq_two h2
  have hb := hexDigit_eq_five h5
  omega

theorem colon_notin_encodeChar (c : Char) : ':' ∉ encodeChar c := by
  rw [encodeChar]
  by_cases h : isUnreservedChar c
  · rw [if_pos h]
    rw [List.mem_singleton]
    intro hc
    rw [← hc] at h
    cases h
  · rw [if_neg h]
    intro hmem
    obtain ⟨b, _, hb⟩ := List.mem_flatMap.mp hmem
    rw [pctByte] at hb
    rcases List.mem_cons.mp hb with hb | hb
    · cases hb
    rcases List.mem_cons.mp hb with hb | hb
    · exact hexDigit_ne_colon _ hb.symm
    · rw [List.mem_singleton] at hb
      exact hexDigit_ne_colon _ hb.symm

theorem colon_notin_encodeUC (l : List Char) : ':' ∉ encodeUC l := by
  rw [encodeUC]
  intro hmem
  obtain ⟨c, _, hc⟩ := List.mem_flatMap.mp hmem
  exact colon_notin_encodeChar c hc

theorem encodeChar_colon : encodeChar ':' = ['%', '3', 'A'] := by decide

theorem encoded_colon_escape {l : List Char} (h : ':' ∈ l) :
    ['%', '3', 'A'] <:+: encodeUC l := by
  induction l with
  | nil => cases h
  | cons c t ih =>
      rcases List.mem_cons.mp h with rfl | h
      · refine ⟨[], encodeUC t, ?_⟩
        show [] ++ ['%', '3', 'A'] ++ encodeUC t = encodeChar ':' ++ encodeUC t
        rw [encodeChar_colon]
        rfl
      · obtain ⟨u, v, huv⟩ := ih h
        refine ⟨encodeChar c ++ u, v, ?_⟩
        show encodeChar c ++ u ++ ['%', '3', 'A'] ++ v = encodeChar c ++ encodeUC t
        rw [← huv]
        simp [List.append_assoc]

/-- A block of encoder output is either a non-`%` unreserved character, or a
`%HH` escape whose digits are not `%` and do not spell the escape of `%`
itself. -/
def GoodBlock (B : List Char) : Prop :=
  (∃ c, c ≠ '%' ∧ B = [c]) ∨
  (∃ h1 h2, h1 ≠ '%' ∧ h2 ≠ '%' ∧ ¬(h1 = '2' ∧ h2 = '5') ∧ B = ['%', h1, h2])

theorem encodeUC_eq_flatten (l : List Char) : encodeUC l = (encBlocks l).flatten := by
  induction l with
  | nil => rfl
  | cons c t ih =>
      show encodeChar c ++ encodeUC t = _
      rw [encBlocks]
      rw [List.flatMap_cons, List.flatten_append, ih]
      congr 1
      rw [encodeChar]
      by_cases h : isUnreservedChar c
      · rw [if_pos h, if_pos h]
        rfl
      · rw [if_neg h, if_neg h]
        rfl

theorem encBlocks_good {l : List Char} (h : '%' ∉ l) :
    ∀ B ∈ encBlocks l, GoodBlock B := by
  intro B hB
  rw [encBlocks] at hB
  obtain ⟨c, hc, hcB⟩ := List.mem_flatMap.mp hB
  have hcp : c ≠ '%' := fun he => h (he ▸ hc)
  by_cases hu : isUnreservedChar c
  · rw [if_pos hu] at hcB
    rw [List.mem_singleton] at hcB
    exact Or.inl ⟨c, hcp, hcB⟩
  · rw [if_neg hu] at hcB
    obtain ⟨b, hbmem, hbB⟩ := List.mem_map.mp hcB
    refine Or.inr ⟨hexDigit (b / 16), hexDigit (b % 16),
      hexDigit_ne_pct _, hexDigit_ne_pct _, ?_, hbB.symm⟩
    rintro ⟨h2, h5⟩
    have hb37 : b = 37 := pctByte_byte37 h2 h5
    rw [hb37] at hbmem
    exact hcp (utf8Bytes_byte37 hbmem)

theorem infix_append_split {α : Type} {p xs ys : List α} (h : p <:+: xs ++ ys) :
    p <:+: xs ∨ p <:+: ys ∨
      ∃ a w, p = a ++ w ∧ (∃ s, xs = s ++ a) ∧ ∃ t, ys = w ++ t := by
  obtain ⟨s, t, hst⟩ := h
  rw [List.append_assoc] at hst
  rcases List.append_eq_append_iff.mp hst with ⟨a', ha1, ha2⟩ | ⟨c', hc1, hc2⟩
  · rcases List.append_eq_append_iff.mp ha2 with ⟨w, hw1, hw2⟩ | ⟨w, hw1, hw2⟩
    · refine Or.inl ⟨s, w, ?_⟩
      rw [ha1, hw1]
      rw [List.append_assoc]
    · exact Or.inr (Or.inr ⟨a', w, hw1, ⟨s, ha1⟩, ⟨t, hw2⟩⟩)
  · refine Or.inr (Or.inl ⟨c', t, ?_⟩)
    rw [hc2, List.append_assoc]

theorem no_p25_flatten :
    ∀ (L : List (List Char)), (∀ B ∈ L, GoodBlock B) →
      ¬ (['%', '2', '5'] <:+: L.flatten) := by
  intro L
  induction L with
  | nil =>
      intro _ h
      have := h.length_le
      simp at this
  | cons B L' ih =>
      intro hgood h
      rw [List.flatten_cons] at h
      rcases infix_append_split h with hB | hys | ⟨a, w, hp, ⟨s, hxs⟩, ⟨t, hys⟩⟩
      · rcases hgood B (List.mem_cons_self _ _) with ⟨c, hc, hBc⟩ |
          ⟨h1, h2, hn1, hn2, hpair, hB3⟩
        · rw [hBc] at hB
          have := hB.length_le
          simp at this
        · rw [hB3] at hB
          have heq := hB.sublist.eq_of_length (by simp)
          injection heq with e1 heq
          injection heq with e2 heq
          injection heq with e3 _
          exact hpair ⟨e2.symm, e3.symm⟩
      · exact ih (fun X hX => hgood X (List.mem_cons_of_mem _ hX)) hys
      · cases a with
        | nil =>
            refine ih (fun X hX => hgood X (List.mem_cons_of_mem _ hX)) ⟨[], t, ?_⟩
            rw [List.nil_append] at hp
            rw [hys, ← hp]
            rfl
        | cons x a' =>
            obtain ⟨rfl, hrest⟩ : x = '%' ∧ a' ++ w = ['2', '5'] := by
              rw [List.cons_append] at hp
              injection hp with e1 e2
              exact ⟨e1.symm, e2.symm⟩
            cases a' with
            | nil =>
                rcases hgood B (List.mem_cons_self _ _) with ⟨c, hc, hBc⟩ |
                  ⟨h1, h2, hn1, hn2, hpair, hB3⟩
                · rw [hBc] at hxs
                  rcases s with _ | ⟨s1, s'⟩
                  · rw [List.nil_append] at hxs
                    injection hxs with e _
                    exact hc e
                  · rw [List.cons_append] at hxs
                    injection hxs with _ e2
                    simp at e2
                · rw [hB3] at hxs
                  rcases s with _ | ⟨s1, _ | ⟨s2, _ | ⟨s3, s'⟩⟩⟩
                  · simp at hxs
                  · simp at hxs
                  · simp at hxs
                    exact hn2 hxs.2.2
                  · simp at hxs
            | cons y a'' =>
                obtain ⟨rfl, hrest2⟩ : y = '2' ∧ a'' ++ w = ['5'] := by
                  rw [List.cons_append] at hrest
                  injection hrest with e1 e2
                  exact ⟨e1, e2⟩
                cases a'' with
                | nil =>
                    rcases hgood B (List.mem_cons_self _ _) with ⟨c, hc, hBc⟩ |
                      ⟨h1, h2, hn1, hn2, hpair, hB3⟩
                    · rw [hBc] at hxs
                      rcases s with _ | ⟨s1, s'⟩ <;> simp at hxs
                    · rw [hB3] at hxs
                      rcases s with _ | ⟨s1, _ | ⟨s2, s'⟩⟩
                      · simp at hxs
                      · simp at hxs
                        exact hn1 hxs.2.1
                      · simp at hxs
                        have hl := congrArg List.length hxs.2.2
                        simp at hl
                | cons z az =>
                    obtain ⟨rfl, hrest3⟩ : z = '5' ∧ az ++ w = [] := by
                      rw [List.cons_append] at hrest2
                      injection hrest2 with e1 e2
                      exact ⟨e1, e2⟩
                    obtain ⟨rfl, -⟩ : az = [] ∧ w = [] :=
                      List.append_eq_nil.mp hrest3
                    rcases hgood B (List.mem_cons_self _ _) with ⟨c, hc, hBc⟩ |
                      ⟨h1, h2, hn1, hn2, hpair, hB3⟩
                    · rw [hBc] at hxs
                      rcases s with _ | ⟨s1, s'⟩ <;> simp at hxs
                    · rw [hB3] at hxs
                      rcases s with _ | ⟨s1, s'⟩
                      · simp at hxs
                        exact hpair ⟨hxs.1, hxs.2⟩
                      · simp at hxs
                        have hl := congrArg List.length hxs.2
                        simp at hl

/-- C8 (amended): for every id containing `:` and not containing `%`, the
update path segment `encodeURIComponent(id)` contains the single-encoded
`%3A`, never the double-encoded `%253A`, and never a raw `:`; and the path
built by `updateCommunityRecipe` is the base URL, a slash, and exactly that
segment. -/
theorem C8_encode_once (recipeId : List Char) (hc : ':' ∈ recipeId)
    (hp : '%' ∉ recipeId) :
    (['%', '3', 'A'] <:+: encodeUC recipeId) ∧
    ¬ (['%', '2', '5', '3', 'A'] <:+: encodeUC recipeId) ∧
    ':' ∉ encodeUC recipeId ∧
    ∀ baseUrl, buildUpdatePath baseUrl (String.mk recipeId) =
      baseUrl ++ "/" ++ String.mk (encodeUC recipeId) := by
  refine ⟨encoded_colon_escape hc, ?_, colon_notin_encodeUC recipeId,
    fun baseUrl => rfl⟩
  intro hinf
  have h25 : ['%', '2', '5'] <:+: encodeUC recipeId :=
    List.IsInfix.trans ⟨[], ['3', 'A'], rfl⟩ hinf
  rw [encodeUC_eq_flatten] at h25
  exact no_p25_flatten _ (encBlocks_good hp) h25

/-- Witness for C8 (amended) at the id `recipe:1:a`. -/
theorem C8_encode_once_witness :
    (':' ∈ "recipe:1:a".toList ∧ '%' ∉ "recipe:1:a".toList) ∧
    (['%', '3', 'A'] <:+: encodeUC "recipe:1:a".toList) ∧
    ¬ (['%', '2', '5', '3', 'A'] <:+: encodeUC "recipe:1:a".toList) ∧
    ':' ∉ encodeUC "recipe:1:a".toList ∧
    ∀ baseUrl, buildUpdatePath baseUrl (String.mk "recipe:1:a".toList) =
      baseUrl ++ "/" ++ String.mk (encodeUC "recipe:1:a".toList) :=
  ⟨⟨by decide, by decide⟩, C8_encode_once _ (by decide) (by decide)⟩

/-- C8 is refuted as stated: the claim quantifies over every id containing `:`,
but for the id `":%3A"` — which contains `:` — the single application of
`encodeURIComponent` yields `"%3A%253A"`, which does contain the
double-encoded `%253A` (the `%` of the id is itself escaped to `%25`). -/
theorem C8_counterexample :
    ':' ∈ ":%3A".toList ∧
    ['%', '2', '5', '3', 'A'] <:+: encodeUC ":%3A".toList := by
  refine ⟨by decide, ⟨['%', '3', 'A'], [], ?_⟩⟩
  decide

end Smoothie
